import Mathlib

/-!
Verification of the template-token engine, path validators, and the
optimistic-concurrency patch applier of an Obsidian attachment-management
plugin.  Strings are modelled as `List Char`; the token grammar is the
shallow embedding of the regular expression `\${(.+?)(?::(.+?))?}` used by
the source (`SUBSTITUTION_TOKEN_REG_EXP`), with JavaScript's leftmost,
lazy-group matching semantics.
-/

namespace AFL

abbrev Str := List Char

/-- One element of the global regex scan of a template: either a single
unmatched character, or one match of `SUBSTITUTION_TOKEN_REG_EXP` with its
captured name (group 1) and optional format (group 2). -/
inductive Piece where
  | gap (c : Char)
  | token (name : Str) (fmt : Option Str)
  deriving DecidableEq, Repr

/-- Scan for the first closing brace, allowing any non-newline characters
before it (the tail of the lazy group 2 of the regex). -/
def findClose : Str → Option (Str × Str)
  | [] => none
  | c :: rest =>
    if c = '}' then some ([], rest)
    else if c = '\n' then none
    else (findClose rest).map (fun p => (c :: p.1, p.2))

/-- Parse group 2 of the regex (`(.+?)` after the colon, lazily matched up
to the first `}` that closes the whole token; the group needs at least one
character). -/
def parseFormat : Str → Option (Str × Str)
  | [] => none
  | c :: rest =>
    if c = '\n' then none
    else (findClose rest).map (fun p => (c :: p.1, p.2))

/-- Continue group 1 after its mandatory first character.  At each position
the engine first tries the optional `:(.+?)` group, then the literal `}`,
and otherwise lets the lazy group 1 grow. -/
def parseAfterFirst : Str → Option (Str × Option Str × Str)
  | [] => none
  | c :: rest =>
    if c = ':' then
      match parseFormat rest with
      | some (fmt, rem) => some ([], some fmt, rem)
      | none => (parseAfterFirst rest).map (fun p => (c :: p.1, p.2.1, p.2.2))
    else if c = '}' then some ([], none, rest)
    else if c = '\n' then none
    else (parseAfterFirst rest).map (fun p => (c :: p.1, p.2.1, p.2.2))

/-- Parse the part of a token match after the literal `${`: returns the
captured name, the optional format, and the remaining input. -/
def parseToken : Str → Option (Str × Option Str × Str)
  | [] => none
  | c :: rest =>
    if c = '\n' then none
    else (parseAfterFirst rest).map (fun p => (c :: p.1, p.2.1, p.2.2))

/-- Fuel-indexed global scan of a template for matches of
`SUBSTITUTION_TOKEN_REG_EXP`; any fuel of at least the input length yields
the true scan.  When a ` $ { ` pair starts no match, the scan advances one
character (past the `$`) and retries, exactly as JavaScript's global regex
matching does. -/
def scanTemplateFuel : Nat → Str → List Piece
  | _, [] => []
  | 0, _ :: _ => []
  | fuel + 1, c :: rest =>
    if c = '$' ∧ rest.head? = some '{' then
      match parseToken rest.tail with
      | some (n, f, rem) => Piece.token n f :: scanTemplateFuel fuel rem
      | none => Piece.gap c :: scanTemplateFuel fuel rest
    else Piece.gap c :: scanTemplateFuel fuel rest

/-- The global scan of a template into unmatched characters and token
matches. -/
def scanTemplate (s : Str) : List Piece := scanTemplateFuel s.length s

/-- Text a scan piece contributes after token-format normalization: gaps
stay verbatim and each token match is rewritten to its bare form. -/
def renderPiece : Piece → Str
  | .gap c => [c]
  | .token n _ => '$' :: '{' :: (n ++ ['}'])

def renderPieces (ps : List Piece) : Str := (ps.map renderPiece).flatten

/-- Embedding of `removeTokenFormatting`: replace every regex match
`${name:format}` (or `${name}`) by `${name}`, leaving unmatched text
untouched. -/
def removeTokenFormatting (s : Str) : Str := renderPieces (scanTemplate s)

/-- Lower-casing of a string, modelling JavaScript `toLowerCase` on the
ASCII names involved. -/
def lowerStr (s : Str) : Str := s.map Char.toLower

/-- The lower-cased names registered by the static initializer of
`Substitutions` (the default formatter map; registration lower-cases its
key). -/
def defaultTokenNames : List Str :=
  ["date".data, "filename".data, "filepath".data, "foldername".data, "folderpath".data,
   "originalcopiedfileextension".data, "originalcopiedfilename".data, "prompt".data,
   "randomdigit".data, "randomdigitorletter".data, "randomletter".data, "uuid".data]

/-- Embedding of `Substitutions.isRegisteredToken`: case-insensitive
membership in the formatter map. -/
def isRegisteredToken (token : Str) : Bool := decide (lowerStr token ∈ defaultTokenNames)

def pieceUnknown : Piece → Option Str
  | .gap _ => none
  | .token n _ => if isRegisteredToken n then none else some n

/-- Embedding of `validateTokens`: the first (leftmost) matched token whose
name is not registered, if any. -/
def validateTokens (s : Str) : Option Str := (scanTemplate s).findSome? pieceUnknown

def isTokenPiece : Piece → Bool
  | .gap _ => false
  | .token _ _ => true

/-- Whether the token regex matches anywhere in the string (JavaScript
`str.match(SUBSTITUTION_TOKEN_REG_EXP)` being truthy). -/
def hasToken (s : Str) : Bool := (scanTemplate s).any isTokenPiece

/-- Resolve the scanned pieces left to right.  `out` gives the string a
formatter produces for a lower-cased registered name and optional format
(abstracting the context/app arguments and effects); an unregistered name
aborts the whole computation with that name as the error, mirroring
`fillTemplate` throwing `Invalid token`. -/
def fillPieces (out : Str → Option Str → Str) : List Piece → Except Str Str
  | [] => .ok []
  | .gap c :: ps => (fillPieces out ps).map (fun r => c :: r)
  | .token n f :: ps =>
    if isRegisteredToken n then (fillPieces out ps).map (fun r => out (lowerStr n) f ++ r)
    else .error n

/-- Embedding of `Substitutions.fillTemplate`: replace every match of the
token regex by its formatter output, failing on the first unregistered
name.  Modelled from the spec: `replaceAllAsync` (an external collaborator
not in this repository) resolves matches in left-to-right template order
and aborts the whole call on a failure, returning no partial string. -/
def fillTemplate (out : Str → Option Str → Str) (template : Str) : Except Str Str :=
  fillPieces out (scanTemplate template)

/-- The characters of the reserved class of
`INVALID_FILENAME_PATH_CHARS_REG_EXP`. -/
def INVALID_FILENAME_PATH_CHARS : List Char := ['\\', '/', ':', '*', '?', '"', '<', '>', '|']

def containsInvalidChar (s : Str) : Bool := s.any (fun c => INVALID_FILENAME_PATH_CHARS.contains c)

/-- Test of `MORE_THAN_TWO_DOTS_REG_EXP` (anchored: the whole name is three
or more dots). -/
def moreThanTwoDots (s : Str) : Bool := decide (3 ≤ s.length) && s.all (fun c => c = '.')

/-- Test of `TRAILING_DOTS_AND_SPACES_REG_EXP` (the name ends in a dot or a
space). -/
def trailingDotsOrSpaces (s : Str) : Bool :=
  match s.getLast? with
  | some c => c = '.' || c = ' '
  | none => false

/-- The token-independent rules of `validateFilename`, applied to the
(possibly normalized) name. -/
def validateFilenameCore (fn : Str) : Str :=
  if fn = ".".data || fn = "..".data then []
  else if fn = [] then "File name is empty".data
  else if containsInvalidChar fn then "File name \"".data ++ fn ++ "\" contains invalid symbols".data
  else if moreThanTwoDots fn then "File name \"".data ++ fn ++ "\" contains more than two dots".data
  else if trailingDotsOrSpaces fn then
    "File name \"".data ++ fn ++ "\" contains trailing dots or spaces".data
  else []

/-- Embedding of `validateFilename`: returns the empty string when the name
is valid and the error reason otherwise. -/
def validateFilename (filename : Str) (areTokensAllowed : Bool := true) : Str :=
  match areTokensAllowed with
  | true =>
    match validateTokens (removeTokenFormatting filename) with
    | some tok => "Unknown token: ".data ++ tok
    | none => validateFilenameCore (removeTokenFormatting filename)
  | false =>
    if hasToken filename then "Tokens are not allowed in file name".data
    else validateFilenameCore filename

/-- Embedding of `trimStart(path, sep)` for the single-character separator:
drop every leading `/`. -/
def trimStartSlash : Str → Str
  | '/' :: rest => trimStartSlash rest
  | s => s

/-- Embedding of `trimEnd(path, sep)`: drop every trailing `/`. -/
def trimEndSlash (s : Str) : Str := (trimStartSlash s.reverse).reverse

/-- JavaScript `split(sep)` on the `/` separator (always at least one
part; adjacent separators yield empty parts). -/
def splitSlash : Str → List Str
  | [] => [[]]
  | c :: rest =>
    match splitSlash rest with
    | [] => [[]]
    | p :: ps => if c = '/' then [] :: p :: ps else (c :: p) :: ps

/-- The segment loop of `validatePath`: the first non-empty
`validateFilename` error over the parts, or the empty string. -/
def firstSegmentError : List Str → Str
  | [] => []
  | p :: ps =>
    if validateFilename p true = [] then firstSegmentError ps else validateFilename p true

/-- Embedding of `validatePath`. -/
def validatePath (path : Str) : Str :=
  match validateTokens (removeTokenFormatting path) with
  | some tok => "Unknown token: ".data ++ tok
  | none =>
    let t := trimEndSlash (trimStartSlash (removeTokenFormatting path))
    if t = [] then [] else firstSegmentError (splitSlash t)

/-- Embedding of the `FileChange` record of `Vault.ts`. -/
structure FileChange where
  startIndex : Nat
  endIndex : Nat
  oldContent : Str
  newContent : Str
  deriving DecidableEq, Repr

/-- JavaScript `content.slice(a, b)` for non-negative indices. -/
def sliceStr (s : Str) (a b : Nat) : Str := (s.drop a).take (b - a)

/-- The verification loop of `applyFileChanges`: every change's expected
old text must equal the snapshot text at its range. -/
def verifyChanges (content : Str) (changes : List FileChange) : Bool :=
  changes.all (fun c => decide (sliceStr content c.startIndex c.endIndex = c.oldContent))

/-- The comparison relation of `changes.sort((a, b) => a.startIndex - b.startIndex)`. -/
def changeLE (a b : FileChange) : Prop := a.startIndex ≤ b.startIndex

instance : DecidableRel changeLE := fun a b => Nat.decLe a.startIndex b.startIndex

instance : IsTotal FileChange changeLE := ⟨fun a b => Nat.le_total a.startIndex b.startIndex⟩

instance : IsTrans FileChange changeLE := ⟨fun _ _ _ => Nat.le_trans⟩

/-- The stable ascending sort by `startIndex` (JavaScript `Array.sort` is
stable, so it agrees with insertion sort under this total preorder). -/
def sortChanges (l : List FileChange) : List FileChange := l.insertionSort changeLE

def dedupAdjacentGo (prev : FileChange) : List FileChange → List FileChange
  | [] => []
  | y :: ys => if y = prev then dedupAdjacentGo y ys else y :: dedupAdjacentGo y ys

/-- The dedup filter of `applyFileChanges`: keep an entry unless it is
`deepEqual` to its immediate predecessor in the sorted array. -/
def dedupAdjacent : List FileChange → List FileChange
  | [] => []
  | x :: xs => x :: dedupAdjacentGo x xs

/-- The overlap loop of `applyFileChanges`: every adjacent pair must
satisfy `previous.endIndex <= current.startIndex`. -/
def checkOverlaps : List FileChange → Bool
  | [] => true
  | [_] => true
  | a :: b :: rest => decide (a.endIndex ≤ b.startIndex) && checkOverlaps (b :: rest)

/-- The merge loop of `applyFileChanges` (string builder with a running
`lastIndex`, then the remainder of the snapshot). -/
def mergeChanges (content : Str) (changes : List FileChange) : Str :=
  let r := changes.foldl
    (fun acc c => (acc.1 ++ sliceStr content acc.2 c.startIndex ++ c.newContent, c.endIndex))
    (([] : Str), 0)
  r.1 ++ content.drop r.2

/-- The validation pipeline of `applyFileChanges` up to the merge step:
verify, sort, deduplicate, check overlaps; `none` means the attempt is
abandoned as a conflict (the callback returns `null`). -/
def validatedChanges (content : Str) (changes : List FileChange) : Option (List FileChange) :=
  if verifyChanges content changes then
    let deduped := dedupAdjacent (sortChanges changes)
    if checkOverlaps deduped then some deduped else none
  else none

/-- The content-processing function `applyFileChanges` passes to
`processWithRetry` for a fixed change list: `none` models the callback
returning `null`. -/
def applyFileChangesFn (content : Str) (changes : List FileChange) : Option Str :=
  (validatedChanges content changes).map (mergeChanges content)

/-- Merged content as the specification describes it: the text before the
first change's start, each change's replacement text, the snapshot text
between consecutive changes' end/start boundaries, and the remainder after
the last change's end.  This definition follows the spec's words, for
comparison with `mergeChanges` from the source. -/
def mergeTailSpec (content : Str) (prevEnd : Nat) : List FileChange → Str
  | [] => content.drop prevEnd
  | c :: cs => sliceStr content prevEnd c.startIndex ++ c.newContent ++ mergeTailSpec content c.endIndex cs

/-- Top level of the specification-side merge description (see
`mergeTailSpec`). -/
def mergeChangesSpec (content : Str) : List FileChange → Str
  | [] => content
  | c :: cs => content.take c.startIndex ++ c.newContent ++ mergeTailSpec content c.endIndex cs

/-- One attempt of `processWithRetry` for a single document: read the
snapshot, run the processing function, and commit through
`app.vault.process` only if the content at write time (after a possible
concurrent edit `interfere`) still equals the snapshot.  Returns the
document content after the attempt and whether the attempt succeeded. -/
def attemptStep (processFn : Str → Option Str) (interfere : Str → Str) (s : Str) : Str × Bool :=
  match processFn s with
  | none => (interfere s, false)
  | some n => if interfere s = s then (n, true) else (interfere s, false)

inductive PatchOutcome where
  | success (finalContent : Str)
  | timeoutExceeded (lastConflictDetail : Str)
  deriving Repr

/-- Modelled from the spec: `retryWithTimeout` of `obsidian-dev-utils`
(an external collaborator, not part of this repository) re-invokes the
attempt on failure until success, or until the time budget is exhausted,
then raises a timeout error carrying the last conflict's detail.  Time is
abstracted into `fuel` units, one per attempt; `adv` gives the concurrent
edit interfering with attempt `k`, and the final `Str` argument threads
the detail (the snapshot of the last failed attempt). -/
def retryWithTimeout (processFn : Str → Option Str) (adv : Nat → Str → Str) :
    Nat → Nat → Str → Str → PatchOutcome
  | 0, _, _, detail => .timeoutExceeded detail
  | fuel + 1, k, s, _ =>
    match attemptStep processFn (adv k) s with
    | (s', true) => .success s'
    | (s', false) => retryWithTimeout processFn adv fuel (k + 1) s' s

/-- The caller-overridable options record (only the field the claims are
about). -/
structure RetryOptionsModel where
  timeoutInMilliseconds : Option Nat
  deriving DecidableEq, Repr

/-- The `DEFAULT_RETRY_OPTIONS` constant of `processWithRetry`. -/
def DEFAULT_RETRY_OPTIONS : RetryOptionsModel := ⟨some 60000⟩

/-- The spread merge `{ ...DEFAULT_RETRY_OPTIONS, ...retryOptions }`: a
field supplied by the caller wins, otherwise the default applies. -/
def overriddenOptions (retryOptions : RetryOptionsModel) : RetryOptionsModel :=
  ⟨match retryOptions.timeoutInMilliseconds with
    | some t => some t
    | none => DEFAULT_RETRY_OPTIONS.timeoutInMilliseconds⟩

/-- A vault subtree for `removeFolderSafe`: a file with its
backlink status (after `removeKey`), or a folder with children. -/
inductive FsNode where
  | file (referenced : Bool)
  | folder (children : List FsNode)

/-- The child loop of `removeFolderSafe` threading `canRemove`.  Files are
always processed: a referenced file only clears the flag, an unreferenced
one is deleted.  A folder child is recursed into through
`canRemove &&= await removeFolderSafe(...)`, whose short-circuit skips the
recursive call entirely once `canRemove` is false.  Deletions themselves
are assumed to succeed (the error-recovery branches are plumbing).  The
result is the final flag and the children that remain. -/
def removeChildrenF : Nat → Bool → List FsNode → Bool × List FsNode
  | 0, canRemove, l => (canRemove, l)
  | _ + 1, canRemove, [] => (canRemove, [])
  | fuel + 1, canRemove, FsNode.file referenced :: rest =>
    if referenced then
      let r := removeChildrenF fuel false rest
      (r.1, FsNode.file referenced :: r.2)
    else
      removeChildrenF fuel canRemove rest
  | fuel + 1, canRemove, FsNode.folder ch :: rest =>
    if canRemove then
      let inner := removeChildrenF fuel true ch
      if inner.1 then
        removeChildrenF fuel true rest
      else
        let r := removeChildrenF fuel false rest
        (r.1, FsNode.folder inner.2 :: r.2)
    else
      let r := removeChildrenF fuel false rest
      (r.1, FsNode.folder ch :: r.2)

/-- Embedding of `removeFolderSafe` on a folder's children (with recursion
fuel): returns the reported flag and `none` when the folder itself was
deleted, or the remaining children. -/
def removeFolderSafe (fuel : Nat) (children : List FsNode) : Bool × Option (List FsNode) :=
  let r := removeChildrenF fuel true children
  if r.1 then (true, none) else (false, some r.2)

/-- The unmatched characters of a template, in order. -/
def gapChars (s : Str) : Str :=
  (scanTemplate s).filterMap (fun p => match p with | .gap c => some c | .token _ _ => none)

/-- The string `fillPieces` produces when every token is registered. -/
def outRender (out : Str → Option Str → Str) (ps : List Piece) : Str :=
  (ps.map (fun p => match p with | .gap c => [c] | .token n f => out (lowerStr n) f)).flatten

theorem findClose_len : ∀ {s a b : Str}, findClose s = some (a, b) → b.length < s.length := by
  intro s
  induction s with
  | nil => intro a b h; simp [findClose] at h
  | cons c rest ih =>
    intro a b h
    simp only [findClose] at h
    split at h
    · simp only [Option.some.injEq, Prod.mk.injEq] at h
      obtain ⟨-, rfl⟩ := h
      simp
    · split at h
      · exact Option.noConfusion h
      · cases hfc : findClose rest with
        | none => rw [hfc] at h; simp at h
        | some p =>
          rw [hfc] at h
          simp only [Option.map_some', Option.some.injEq, Prod.mk.injEq] at h
          obtain ⟨-, rfl⟩ := h
          exact Nat.lt_trans (ih hfc) (by simp)

theorem parseFormat_len : ∀ {s a b : Str}, parseFormat s = some (a, b) → b.length < s.length := by
  intro s a b h
  cases s with
  | nil => simp [parseFormat] at h
  | cons c rest =>
    simp only [parseFormat] at h
    split at h
    · exact Option.noConfusion h
    · cases hfc : findClose rest with
      | none => rw [hfc] at h; simp at h
      | some p =>
        rw [hfc] at h
        simp only [Option.map_some', Option.some.injEq, Prod.mk.injEq] at h
        obtain ⟨-, rfl⟩ := h
        exact Nat.lt_trans (findClose_len hfc) (by simp)

theorem parseAfterFirst_len : ∀ {s : Str} {n : Str} {f : Option Str} {b : Str},
    parseAfterFirst s = some (n, f, b) → b.length < s.length := by
  intro s
  induction s with
  | nil => intro n f b h; simp [parseAfterFirst] at h
  | cons c rest ih =>
    intro n f b h
    simp only [parseAfterFirst] at h
    split at h
    · cases hpf : parseFormat rest with
      | some p =>
        rw [hpf] at h
        simp only [Option.some.injEq, Prod.mk.injEq] at h
        obtain ⟨-, -, rfl⟩ := h
        exact Nat.lt_trans (parseFormat_len (by rw [hpf])) (by simp)
      | none =>
        rw [hpf] at h
        cases hpa : parseAfterFirst rest with
        | none => rw [hpa] at h; simp at h
        | some p =>
          rw [hpa] at h
          simp only [Option.map_some', Option.some.injEq, Prod.mk.injEq] at h
          obtain ⟨-, -, rfl⟩ := h
          exact Nat.lt_trans (ih hpa) (by simp)
    · split at h
      · simp only [Option.some.injEq, Prod.mk.injEq] at h
        obtain ⟨-, -, rfl⟩ := h
        simp
      · split at h
        · exact Option.noConfusion h
        · cases hpa : parseAfterFirst rest with
          | none => rw [hpa] at h; simp at h
          | some p =>
            rw [hpa] at h
            simp only [Option.map_some', Option.some.injEq, Prod.mk.injEq] at h
            obtain ⟨-, -, rfl⟩ := h
            exact Nat.lt_trans (ih hpa) (by simp)

theorem parseToken_len : ∀ {s : Str} {n : Str} {f : Option Str} {b : Str},
    parseToken s = some (n, f, b) → b.length < s.length := by
  intro s n f b h
  cases s with
  | nil => simp [parseToken] at h
  | cons c rest =>
    simp only [parseToken] at h
    split at h
    · exact Option.noConfusion h
    · cases hpa : parseAfterFirst rest with
      | none => rw [hpa] at h; simp at h
      | some p =>
        rw [hpa] at h
        simp only [Option.map_some', Option.some.injEq, Prod.mk.injEq] at h
        obtain ⟨-, -, rfl⟩ := h
        exact Nat.lt_trans (parseAfterFirst_len hpa) (by simp)

theorem scanTemplateFuel_nil : ∀ fuel, scanTemplateFuel fuel [] = [] := by
  intro fuel; cases fuel <;> rfl

theorem scanTemplateFuel_irrel : ∀ (fuel₁ fuel₂ : Nat) (s : Str),
    s.length ≤ fuel₁ → s.length ≤ fuel₂ → scanTemplateFuel fuel₁ s = scanTemplateFuel fuel₂ s := by
  intro fuel₁
  induction fuel₁ with
  | zero =>
    intro fuel₂ s h1 _
    have : s = [] := List.eq_nil_of_length_eq_zero (Nat.le_zero.mp h1)
    subst this
    simp [scanTemplateFuel_nil]
  | succ fuel ih =>
    intro fuel₂ s h1 h2
    cases s with
    | nil => simp [scanTemplateFuel_nil]
    | cons c rest =>
      cases fuel₂ with
      | zero => simp at h2
      | succ fuel₂' =>
        simp only [scanTemplateFuel]
        split
        · cases hp : parseToken rest.tail with
          | some p =>
            obtain ⟨n, f, rem⟩ := p
            simp only
            have hlen : rem.length < rest.tail.length := parseToken_len hp
            have hlt : rest.tail.length ≤ rest.length := by
              cases rest <;> simp
            have h1' : rem.length ≤ fuel := by
              simp only [List.length_cons] at h1; omega
            have h2' : rem.length ≤ fuel₂' := by
              simp only [List.length_cons] at h2; omega
            rw [ih fuel₂' rem h1' h2']
          | none =>
            simp only
            rw [ih fuel₂' rest (by simp at h1; omega) (by simp at h2; omega)]
        · rw [ih fuel₂' rest (by simp at h1; omega) (by simp at h2; omega)]

theorem scanTemplateFuel_eq_scan (fuel : Nat) (s : Str) (h : s.length ≤ fuel) :
    scanTemplateFuel fuel s = scanTemplate s :=
  scanTemplateFuel_irrel fuel s.length s h (Nat.le_refl _)

theorem scanTemplate_nil : scanTemplate [] = [] := rfl

theorem scanTemplate_gap {c : Char} {rest : Str} (h : ¬(c = '$' ∧ rest.head? = some '{')) :
    scanTemplate (c :: rest) = Piece.gap c :: scanTemplate rest := by
  show scanTemplateFuel (rest.length + 1) (c :: rest) = _
  simp only [scanTemplateFuel]
  rw [if_neg h]
  rfl

theorem scanTemplate_tok {rest2 : Str} {n : Str} {f : Option Str} {rem : Str}
    (h : parseToken rest2 = some (n, f, rem)) :
    scanTemplate ('$' :: '{' :: rest2) = Piece.token n f :: scanTemplate rem := by
  show scanTemplateFuel (rest2.length + 2) ('$' :: '{' :: rest2) = _
  simp only [scanTemplateFuel, List.tail_cons, h]
  rw [scanTemplateFuel_eq_scan _ rem (Nat.le_of_lt (Nat.lt_succ_of_lt (parseToken_len h)))]
  split
  · rfl
  · next hn => exact absurd (by simp) hn

theorem scanTemplate_nomatch {rest2 : Str} (h : parseToken rest2 = none) :
    scanTemplate ('$' :: '{' :: rest2) = Piece.gap '$' :: scanTemplate ('{' :: rest2) := by
  show scanTemplateFuel (rest2.length + 2) ('$' :: '{' :: rest2) = _
  simp only [scanTemplateFuel, List.tail_cons, h]
  split
  · rfl
  · next hn => exact absurd (by simp) hn

theorem fillPieces_error (out : Str → Option Str → Str) :
    ∀ (ps : List Piece) (n : Str), ps.findSome? pieceUnknown = some n →
      fillPieces out ps = .error n := by
  intro ps
  induction ps with
  | nil => intro n h; simp [List.findSome?] at h
  | cons p ps ih =>
    intro n h
    cases p with
    | gap c =>
      rw [List.findSome?_cons] at h
      simp only [pieceUnknown] at h
      rw [fillPieces, ih n h]
      rfl
    | token n' f' =>
      rw [List.findSome?_cons] at h
      simp only [pieceUnknown] at h
      by_cases hr : isRegisteredToken n'
      · rw [if_pos hr] at h
        rw [fillPieces, if_pos hr, ih n h]
        rfl
      · rw [if_neg hr] at h
        simp only [Option.some.injEq] at h
        subst h
        rw [fillPieces, if_neg hr]

theorem fillPieces_ok (out : Str → Option Str → Str) :
    ∀ ps : List Piece, ps.findSome? pieceUnknown = none →
      fillPieces out ps = .ok (outRender out ps) := by
  intro ps
  induction ps with
  | nil => intro _; rfl
  | cons p ps ih =>
    intro h
    rw [List.findSome?_cons] at h
    cases p with
    | gap c =>
      simp only [pieceUnknown] at h
      rw [fillPieces, ih h]
      rfl
    | token n' f' =>
      simp only [pieceUnknown] at h
      by_cases hr : isRegisteredToken n'
      · rw [if_pos hr] at h
        rw [fillPieces, if_pos hr, ih h]
        rfl
      · rw [if_neg hr] at h
        exact Option.noConfusion h

theorem scanTemplate_no_dollar : ∀ s : Str, (∀ c ∈ s, c ≠ '$') →
    scanTemplate s = s.map Piece.gap := by
  intro s
  induction s with
  | nil => intro _; rfl
  | cons c rest ih =>
    intro h
    have hc : c ≠ '$' := h c (List.mem_cons_self c rest)
    rw [scanTemplate_gap (fun hand => hc hand.1)]
    rw [ih (fun x hx => h x (List.mem_cons_of_mem c hx))]
    rfl

theorem hasToken_eq_false_of_no_dollar {s : Str} (h : ∀ c ∈ s, c ≠ '$') :
    hasToken s = false := by
  rw [hasToken, scanTemplate_no_dollar s h]
  simp [isTokenPiece]

theorem outRender_no_dollar (out : Str → Option Str → Str) (s : Str)
    (hgap : ∀ c ∈ gapChars s, c ≠ '$') (hout : ∀ n f c, c ∈ out n f → c ≠ '$') :
    ∀ c ∈ outRender out (scanTemplate s), c ≠ '$' := by
  intro c hc
  rw [outRender, List.mem_flatten] at hc
  obtain ⟨l, hl, hcl⟩ := hc
  rw [List.mem_map] at hl
  obtain ⟨p, hp, rfl⟩ := hl
  cases p with
  | gap g =>
    simp only [List.mem_singleton] at hcl
    subst hcl
    exact hgap c (by
      rw [gapChars, List.mem_filterMap]
      exact ⟨Piece.gap c, hp, rfl⟩)
  | token n f => exact hout (lowerStr n) f c hcl

/-- Claim C5: for every template containing at least one matched token
whose name, compared case-insensitively, is not registered, `fillTemplate`
fails with the unknown-token error carrying the leftmost such token's name
(`validateTokens` returns exactly the leftmost unregistered matched name),
aborting the whole call with no partial string. -/
theorem C5_fillTemplate_unknown_token (out : Str → Option Str → Str) (s X : Str)
    (h : validateTokens s = some X) : fillTemplate out s = .error X :=
  fillPieces_error out (scanTemplate s) X h

/-- Witness for C5 at a concrete template: of the two unregistered tokens
`foo` and `bar`, the leftmost (`foo`) is reported. -/
theorem C5_fillTemplate_unknown_token_witness :
    validateTokens "${fileName}-${foo}-${bar}".data = some "foo".data ∧
    fillTemplate (fun _ _ => []) "${fileName}-${foo}-${bar}".data = .error "foo".data :=
  ⟨rfl, C5_fillTemplate_unknown_token (fun _ _ => []) _ _ rfl⟩

/-- Claim C6, amended: for a template whose matched tokens are all
registered, and in which neither the unmatched segments nor any formatter
output contains the character `$`, `fillTemplate` succeeds and its output
contains no match of the token regex (no residual markers).  Without the
`$`-freeness conditions the original claim fails, see the
counterexample. -/
theorem C6_fillTemplate_no_residual (out : Str → Option Str → Str) (s : Str)
    (hreg : validateTokens s = none)
    (hgap : ∀ c ∈ gapChars s, c ≠ '$')
    (hout : ∀ n f c, c ∈ out n f → c ≠ '$') :
    ∃ r, fillTemplate out s = .ok r ∧ hasToken r = false :=
  ⟨outRender out (scanTemplate s), fillPieces_ok out _ hreg,
    hasToken_eq_false_of_no_dollar (outRender_no_dollar out s hgap hout)⟩

/-- Counterexample to C6 as stated: in `$${fileName}{a}` the only matched
token (`fileName`) is registered, yet with the formatter producing the
empty string (a file whose base name is empty) the output is `${a}`,
which the token regex matches — a residual marker. -/
theorem C6_counterexample :
    validateTokens "$${fileName}{a}".data = none ∧
    fillTemplate (fun _ _ => []) "$${fileName}{a}".data = .ok "${a}".data ∧
    hasToken "${a}".data = true :=
  ⟨rfl, rfl, rfl⟩

/-- Witness for the amended C6 at a concrete template and formatter. -/
theorem C6_fillTemplate_no_residual_witness :
    ∃ r, fillTemplate (fun _ _ => "X".data) "a ${date} b".data = .ok r ∧ hasToken r = false :=
  C6_fillTemplate_no_residual (fun _ _ => "X".data) _ rfl (by decide)
    (fun n f c hc => by
      simp only [List.mem_cons, List.not_mem_nil, or_false] at hc
      subst hc
      decide)

/-- Claim C7, amended: `validateFilename("")` is a non-empty error,
`"."` and `".."` are valid, `"a..."` fails with the trailing-dots reason
(the more-than-two-dots reason applies only to names consisting entirely
of three or more dots, such as `"..."`), `"a."` fails with the
trailing-dot reason, and `"a/b"` fails with the invalid-character
reason. -/
theorem C7_validateFilename_cases :
    validateFilename "".data true ≠ [] ∧
    validateFilename ".".data true = [] ∧
    validateFilename "..".data true = [] ∧
    validateFilename "a...".data true
      = "File name \"a...\" contains trailing dots or spaces".data ∧
    validateFilename "a.".data true
      = "File name \"a.\" contains trailing dots or spaces".data ∧
    validateFilename "a/b".data true
      = "File name \"a/b\" contains invalid symbols".data ∧
    validateFilename "...".data true
      = "File name \"...\" contains more than two dots".data :=
  ⟨by decide, rfl, rfl, rfl, rfl, rfl, rfl⟩

/-- Counterexample to C7 as stated: `validateFilename("a...")` does fail,
but with the trailing-dots reason, not the more-than-two-dots reason
claimed by the spec (the anchored regex for the latter only matches names
made solely of dots). -/
theorem C7_counterexample :
    validateFilename "a...".data true
      = "File name \"a...\" contains trailing dots or spaces".data ∧
    validateFilename "a...".data true
      ≠ "File name \"a...\" contains more than two dots".data :=
  ⟨rfl, by decide⟩

theorem mergeChanges_fold (content : Str) :
    ∀ (cs : List FileChange) (acc : Str) (last : Nat),
      (cs.foldl
          (fun acc c => (acc.1 ++ sliceStr content acc.2 c.startIndex ++ c.newContent, c.endIndex))
          (acc, last)).1
        ++ content.drop
          (cs.foldl
            (fun acc c => (acc.1 ++ sliceStr content acc.2 c.startIndex ++ c.newContent, c.endIndex))
            (acc, last)).2
      = acc ++ mergeTailSpec content last cs := by
  intro cs
  induction cs with
  | nil => intro acc last; rfl
  | cons c cs ih =>
    intro acc last
    simp only [List.foldl_cons, mergeTailSpec]
    rw [ih]
    simp [List.append_assoc]

theorem mergeChanges_eq_spec (content : Str) (cs : List FileChange) :
    mergeChanges content cs = mergeChangesSpec content cs := by
  cases cs with
  | nil =>
    show ([] : Str) ++ content.drop 0 = content
    simp
  | cons c cs =>
    show _ ++ content.drop _ = _
    rw [mergeChanges_fold content (c :: cs) [] 0]
    simp only [mergeTailSpec, mergeChangesSpec, List.nil_append]
    rw [show sliceStr content 0 c.startIndex = content.take c.startIndex by
      simp [sliceStr]]

/-- Claim C1: on the snapshot `ABCDEFGHIJ` with changes
`{2,4,CD,XY}` and `{6,8,GH,ZZ}` the merge step produces `ABXYEFZZIJ`, and
in general the loop of `applyFileChanges` builds exactly the
concatenation the spec describes: the text before the first change's
start, each change's replacement, the snapshot between consecutive
end/start boundaries, and the remainder after the last change's end. -/
theorem C1_merge_concatenation :
    applyFileChangesFn "ABCDEFGHIJ".data
        [⟨2, 4, "CD".data, "XY".data⟩, ⟨6, 8, "GH".data, "ZZ".data⟩]
      = some "ABXYEFZZIJ".data ∧
    ∀ (content : Str) (cs : List FileChange),
      mergeChanges content cs = mergeChangesSpec content cs :=
  ⟨rfl, mergeChanges_eq_spec⟩

theorem dedupAdjacentGo_sublist : ∀ (l : List FileChange) (prev : FileChange),
    List.Sublist (dedupAdjacentGo prev l) l := by
  intro l
  induction l with
  | nil => intro prev; exact List.Sublist.refl []
  | cons y ys ih =>
    intro prev
    rw [dedupAdjacentGo]
    split
    · exact (ih y).cons y
    · exact (ih y).cons₂ y

theorem dedupAdjacent_sublist (l : List FileChange) : List.Sublist (dedupAdjacent l) l := by
  cases l with
  | nil => exact List.Sublist.refl []
  | cons x xs => exact (dedupAdjacentGo_sublist xs x).cons₂ x

theorem dedupAdjacentGo_chain : ∀ (l : List FileChange) (prev : FileChange),
    List.Chain (fun a b => a ≠ b) prev (dedupAdjacentGo prev l) := by
  intro l
  induction l with
  | nil => intro prev; exact List.Chain.nil
  | cons y ys ih =>
    intro prev
    rw [dedupAdjacentGo]
    split
    · next he => subst he; exact ih y
    · next he => exact List.Chain.cons (Ne.symm he) (ih y)

theorem dedupAdjacent_chain (l : List FileChange) :
    List.Chain' (fun a b => a ≠ b) (dedupAdjacent l) := by
  cases l with
  | nil => trivial
  | cons x xs => exact dedupAdjacentGo_chain xs x

theorem checkOverlaps_chain : ∀ l : List FileChange, checkOverlaps l = true →
    List.Chain' (fun a b => a.endIndex ≤ b.startIndex) l
  | [], _ => trivial
  | [_], _ => List.chain'_singleton _
  | a :: b :: t, h => by
    rw [checkOverlaps, Bool.and_eq_true, decide_eq_true_eq] at h
    exact List.chain'_cons.mpr ⟨h.1, checkOverlaps_chain (b :: t) h.2⟩

theorem sorted_chain_pairwise : ∀ {l : List FileChange}, List.Sorted changeLE l →
    List.Chain' (fun a b => a.endIndex ≤ b.startIndex) l →
    List.Pairwise (fun a b => a.endIndex ≤ b.startIndex) l := by
  intro l
  induction l with
  | nil => intro _ _; exact List.Pairwise.nil
  | cons x xs ih =>
    intro hs hc
    have hs' : List.Sorted changeLE xs := hs.of_cons
    have hc' := hc.tail
    refine List.Pairwise.cons ?_ (ih hs' hc')
    intro y hy
    cases xs with
    | nil => cases hy
    | cons z zs =>
      have hxz : x.endIndex ≤ z.startIndex := (List.chain'_cons.mp hc).1
      rcases List.mem_cons.mp hy with rfl | hyzs
      · exact hxz
      · have hzy : z.startIndex ≤ y.startIndex := (List.pairwise_cons.mp hs').1 y hyzs
        exact Nat.le_trans hxz hzy

theorem validatedChanges_some {content : Str} {changes out : List FileChange}
    (h : validatedChanges content changes = some out) :
    out = dedupAdjacent (sortChanges changes) ∧ checkOverlaps out = true := by
  rw [validatedChanges] at h
  split at h
  · simp only at h
    split at h
    · next hck =>
      obtain rfl := (Option.some.injEq _ _).mp h
      exact ⟨rfl, hck⟩
    · exact Option.noConfusion h
  · exact Option.noConfusion h

/-- Claim C2, amended: every change list that reaches the merge step of
`applyFileChanges` is sorted ascending by `startIndex`, has no two
adjacent exact-duplicate entries (adjacent identical entries collapse to
their first occurrence without being treated as an overlap conflict), and
no two of its entries overlap (every earlier entry's `endIndex` is at most
every later entry's `startIndex`).  Exact duplicates that are not
adjacent after sorting — possible only for zero-width ranges sharing a
position — can survive, see the counterexample. -/
theorem C2_validated_invariants (content : Str) (changes out : List FileChange)
    (h : validatedChanges content changes = some out) :
    List.Sorted changeLE out ∧
    List.Chain' (fun a b => a ≠ b) out ∧
    List.Pairwise (fun a b => a.endIndex ≤ b.startIndex) out := by
  obtain ⟨rfl, hck⟩ := validatedChanges_some h
  have hsorted : List.Sorted changeLE (dedupAdjacent (sortChanges changes)) :=
    (List.sorted_insertionSort changeLE changes).sublist (dedupAdjacent_sublist _)
  exact ⟨hsorted, dedupAdjacent_chain _,
    sorted_chain_pairwise hsorted (checkOverlaps_chain _ hck)⟩

/-- Counterexample to C2 as stated: three changes of width zero at the
same offset — the first and third identical — survive validation
unchanged, so the list that reaches the merge step still contains an
exact duplicate (it is not `Nodup`), and the batch even merges. -/
theorem C2_counterexample :
    validatedChanges "hello".data
        [⟨5, 5, [], []⟩, ⟨5, 5, [], "y".data⟩, ⟨5, 5, [], []⟩]
      = some [⟨5, 5, [], []⟩, ⟨5, 5, [], "y".data⟩, ⟨5, 5, [], []⟩] ∧
    ¬ List.Nodup [(⟨5, 5, [], []⟩ : FileChange), ⟨5, 5, [], "y".data⟩, ⟨5, 5, [], []⟩] ∧
    applyFileChangesFn "hello".data
        [⟨5, 5, [], []⟩, ⟨5, 5, [], "y".data⟩, ⟨5, 5, [], []⟩]
      = some "helloy".data :=
  ⟨rfl, by decide, rfl⟩

/-- Witness for C2 at a concrete unsorted batch with an exact duplicate:
the surviving list is sorted, adjacent-duplicate-free and
non-overlapping. -/
theorem C2_validated_invariants_witness :
    List.Sorted changeLE [(⟨2, 4, "CD".data, "XY".data⟩ : FileChange), ⟨6, 8, "GH".data, "ZZ".data⟩] ∧
    List.Chain' (fun a b => a ≠ b)
      [(⟨2, 4, "CD".data, "XY".data⟩ : FileChange), ⟨6, 8, "GH".data, "ZZ".data⟩] ∧
    List.Pairwise (fun a b => a.endIndex ≤ b.startIndex)
      [(⟨2, 4, "CD".data, "XY".data⟩ : FileChange), ⟨6, 8, "GH".data, "ZZ".data⟩] :=
  C2_validated_invariants "ABCDEFGHIJ".data
    [⟨6, 8, "GH".data, "ZZ".data⟩, ⟨2, 4, "CD".data, "XY".data⟩, ⟨2, 4, "CD".data, "XY".data⟩]
    _ rfl

theorem verifyChanges_false {content : Str} {changes : List FileChange}
    (h : ∃ ch ∈ changes, sliceStr content ch.startIndex ch.endIndex ≠ ch.oldContent) :
    verifyChanges content changes = false := by
  obtain ⟨ch, hin, hne⟩ := h
  rw [verifyChanges]
  rw [List.all_eq_false]
  exact ⟨ch, hin, by simpa using hne⟩

/-- Claim C3: in any attempt of `applyFileChanges`, if some change's
expected old text differs from the snapshot text at its range, or two
changes remaining after deduplication overlap, the whole batch is
abandoned as a conflict (`null`) rather than a hard error: the write step
is never reached (the attempt leaves the document to whatever concurrent
edits did, unmodified when there are none), and the retry cycle re-runs
from a fresh read. -/
theorem C3_conflict_abandons_batch (content : Str) (changes : List FileChange)
    (h : (∃ ch ∈ changes, sliceStr content ch.startIndex ch.endIndex ≠ ch.oldContent) ∨
         checkOverlaps (dedupAdjacent (sortChanges changes)) = false) :
    applyFileChangesFn content changes = none ∧
    (∀ interfere, attemptStep (fun c => applyFileChangesFn c changes) interfere content
        = (interfere content, false)) ∧
    (∀ adv fuel k d,
        retryWithTimeout (fun c => applyFileChangesFn c changes) adv (fuel + 1) k content d
          = retryWithTimeout (fun c => applyFileChangesFn c changes) adv fuel (k + 1)
              (adv k content) content) := by
  have hnone : applyFileChangesFn content changes = none := by
    rw [applyFileChangesFn, validatedChanges]
    rcases h with hv | ho
    · rw [verifyChanges_false hv]
      rfl
    · split
      · simp only [ho, Bool.false_eq_true, if_false, Option.map_none']
      · rfl
  have hstep : ∀ interfere, attemptStep (fun c => applyFileChangesFn c changes) interfere content
      = (interfere content, false) := by
    intro interfere
    rw [attemptStep]
    simp only [hnone]
  refine ⟨hnone, hstep, ?_⟩
  intro adv fuel k d
  rw [retryWithTimeout, hstep (adv k)]

/-- Witness for C3 at a concrete overlapping batch (`[0,5)` overlaps
`[3,7)`): the attempt yields no content and, with no concurrent edit, the
document is unchanged and the attempt reports failure. -/
theorem C3_conflict_abandons_batch_witness :
    applyFileChangesFn "ABCDEFGHIJ".data
        [⟨0, 5, "ABCDE".data, "x".data⟩, ⟨3, 7, "DEFG".data, "y".data⟩] = none ∧
    attemptStep
        (fun c => applyFileChangesFn c
          [⟨0, 5, "ABCDE".data, "x".data⟩, ⟨3, 7, "DEFG".data, "y".data⟩])
        id "ABCDEFGHIJ".data
      = ("ABCDEFGHIJ".data, false) :=
  ⟨(C3_conflict_abandons_batch "ABCDEFGHIJ".data
      [⟨0, 5, "ABCDE".data, "x".data⟩, ⟨3, 7, "DEFG".data, "y".data⟩] (Or.inr (by decide))).1,
   (C3_conflict_abandons_batch "ABCDEFGHIJ".data
      [⟨0, 5, "ABCDE".data, "x".data⟩, ⟨3, 7, "DEFG".data, "y".data⟩] (Or.inr (by decide))).2.1 id⟩

theorem attemptStep_none {pf : Str → Option Str} {f : Str → Str} {s : Str}
    (hpf : pf s = none) : attemptStep pf f s = (f s, false) := by
  rw [attemptStep, hpf]

theorem attemptStep_commit {pf : Str → Option Str} {f : Str → Str} {s n : Str}
    (hpf : pf s = some n) (hun : f s = s) : attemptStep pf f s = (n, true) := by
  rw [attemptStep, hpf]
  exact if_pos hun

theorem attemptStep_reject {pf : Str → Option Str} {f : Str → Str} {s n : Str}
    (hpf : pf s = some n) (hch : f s ≠ s) : attemptStep pf f s = (f s, false) := by
  rw [attemptStep, hpf]
  exact if_neg hch

theorem retry_success_cas : ∀ (pf : Str → Option Str) (adv : Nat → Str → Str)
    (fuel k : Nat) (s d c : Str), retryWithTimeout pf adv fuel k s d = .success c →
    ∃ i snap, adv i snap = snap ∧ pf snap = some c := by
  intro pf adv fuel
  induction fuel with
  | zero =>
    intro k s d c h
    rw [retryWithTimeout] at h
    exact PatchOutcome.noConfusion h
  | succ fuel ih =>
    intro k s d c h
    rw [retryWithTimeout] at h
    cases hpf : pf s with
    | none =>
      rw [attemptStep_none hpf] at h
      exact ih (k + 1) (adv k s) s c h
    | some n =>
      by_cases hun : adv k s = s
      · rw [attemptStep_commit hpf hun] at h
        have hnc : PatchOutcome.success n = PatchOutcome.success c := h
        injection hnc with hnc'
        subst hnc'
        exact ⟨k, s, hun, hpf⟩
      · rw [attemptStep_reject hpf hun] at h
        exact ih (k + 1) (adv k s) s c h

theorem retry_commit_if_unchanged (pf : Str → Option Str) (adv : Nat → Str → Str)
    (fuel k : Nat) (s d n : Str) (hpf : pf s = some n) (hun : adv k s = s) :
    retryWithTimeout pf adv (fuel + 1) k s d = .success n := by
  rw [retryWithTimeout, attemptStep_commit hpf hun]

theorem retry_rejected_restarts (pf : Str → Option Str) (adv : Nat → Str → Str)
    (fuel k : Nat) (s d n : Str) (hpf : pf s = some n) (hch : adv k s ≠ s) :
    retryWithTimeout pf adv (fuel + 1) k s d
      = retryWithTimeout pf adv fuel (k + 1) (adv k s) s := by
  rw [retryWithTimeout, attemptStep_reject hpf hch]

theorem retry_timeout_all_fail : ∀ (pf : Str → Option Str) (fuel k : Nat) (s d : Str),
    (∀ x, pf x = none) →
    retryWithTimeout pf (fun _ x => x) (fuel + 1) k s d = .timeoutExceeded s := by
  intro pf fuel
  induction fuel with
  | zero =>
    intro k s d hall
    rw [retryWithTimeout, attemptStep_none (hall s)]
    rfl
  | succ fuel ih =>
    intro k s d hall
    rw [retryWithTimeout, attemptStep_none (hall s)]
    exact ih (k + 1) s s hall

/-- Claim C4: `processWithRetry` commits the computed content only when
the content at write time still equals the snapshot read at the start of
the attempt (any successful run contains such an interference-free
attempt); a rejected write restarts the whole cycle from a fresh read;
the cycle is bounded only by a time budget whose default is 60000
milliseconds and which the caller's options override; and an exhausted
budget surfaces a timeout carrying the last conflicting snapshot as its
detail. -/
theorem C4_retry_cas_and_timeout :
    (∀ o : RetryOptionsModel,
        (overriddenOptions o).timeoutInMilliseconds
          = some (o.timeoutInMilliseconds.getD 60000)) ∧
    (∀ (pf : Str → Option Str) (adv : Nat → Str → Str) (fuel k : Nat) (s d n : Str),
        pf s = some n → adv k s = s →
        retryWithTimeout pf adv (fuel + 1) k s d = .success n) ∧
    (∀ (pf : Str → Option Str) (adv : Nat → Str → Str) (fuel k : Nat) (s d c : Str),
        retryWithTimeout pf adv fuel k s d = .success c →
        ∃ i snap, adv i snap = snap ∧ pf snap = some c) ∧
    (∀ (pf : Str → Option Str) (adv : Nat → Str → Str) (fuel k : Nat) (s d n : Str),
        pf s = some n → adv k s ≠ s →
        retryWithTimeout pf adv (fuel + 1) k s d
          = retryWithTimeout pf adv fuel (k + 1) (adv k s) s) ∧
    (∀ (pf : Str → Option Str) (adv : Nat → Str → Str) (k : Nat) (s d : Str),
        retryWithTimeout pf adv 0 k s d = .timeoutExceeded d) ∧
    (∀ (pf : Str → Option Str) (fuel k : Nat) (s d : Str), (∀ x, pf x = none) →
        retryWithTimeout pf (fun _ x => x) (fuel + 1) k s d = .timeoutExceeded s) := by
  refine ⟨?_, ?_, retry_success_cas, retry_rejected_restarts, ?_, retry_timeout_all_fail⟩
  · intro o
    rcases o with ⟨_ | t⟩ <;> rfl
  · intro pf adv fuel k s d n hpf hun
    exact retry_commit_if_unchanged pf adv fuel k s d n hpf hun
  · intro pf adv k s d
    rfl

/-- Witness for C4 at concrete runs: the default and an overridden
timeout, a committing attempt on an unchanged document, the
compare-and-swap witness extracted from that success, a rejected write
restarting the loop, and the exhausted budget reporting the last
conflicting snapshot. -/
theorem C4_retry_cas_and_timeout_witness :
    (overriddenOptions ⟨none⟩).timeoutInMilliseconds = some 60000 ∧
    (overriddenOptions ⟨some 5⟩).timeoutInMilliseconds = some 5 ∧
    retryWithTimeout (fun _ => some "N".data) (fun _ x => x) 1 0 "S".data "D".data
      = .success "N".data ∧
    (∃ i snap, (fun (_ : Nat) (x : Str) => x) i snap = snap ∧
      (fun (_ : Str) => some "N".data) snap = some "N".data) ∧
    retryWithTimeout (fun _ => none) (fun _ x => x) 3 0 "S".data "D".data
      = .timeoutExceeded "S".data :=
  ⟨C4_retry_cas_and_timeout.1 ⟨none⟩,
   C4_retry_cas_and_timeout.1 ⟨some 5⟩,
   C4_retry_cas_and_timeout.2.1 (fun _ => some "N".data) (fun _ x => x) 0 0
     "S".data "D".data "N".data rfl rfl,
   C4_retry_cas_and_timeout.2.2.1 (fun _ => some "N".data) (fun _ x => x) 1 0
     "S".data "D".data "N".data rfl,
   C4_retry_cas_and_timeout.2.2.2.2.2 (fun _ => none) 2 0 "S".data "D".data (fun _ => rfl)⟩

/-- Claim C9 fails on the code (the spec describes the intent): with the
referenced attachment listed before a subfolder holding only an
unreferenced attachment, `canRemove &&=` short-circuits, the recursive
`removeFolderSafe` call is skipped, and the independently deletable
subfolder survives untouched (first run), although the same subfolder is
removed when it precedes the failing child (second run); the function
returns `false` in both runs. -/
theorem C9_short_circuit_skips_subfolder :
    removeFolderSafe 10 [FsNode.file true, FsNode.folder [FsNode.file false]]
      = (false, some [FsNode.file true, FsNode.folder [FsNode.file false]]) ∧
    removeFolderSafe 10 [FsNode.folder [FsNode.file false], FsNode.file true]
      = (false, some [FsNode.file true]) :=
  ⟨rfl, rfl⟩

theorem findClose_append {x : Char} (hx : x ≠ '}') : ∀ s : Str,
    findClose (s ++ [x]) = (findClose s).map (fun p => (p.1, p.2 ++ [x])) := by
  intro s
  induction s with
  | nil =>
    simp only [List.nil_append, findClose]
    rw [if_neg hx]
    split
    · rfl
    · rfl
  | cons c rest ih =>
    simp only [List.cons_append, findClose, List.append_eq]
    split
    · rfl
    · split
      · rfl
      · rw [ih, Option.map_map, Option.map_map]
        rfl

theorem parseFormat_append {x : Char} (hx : x ≠ '}') (s : Str) :
    parseFormat (s ++ [x]) = (parseFormat s).map (fun p => (p.1, p.2 ++ [x])) := by
  cases s with
  | nil =>
    simp only [List.nil_append, parseFormat]
    split
    · rfl
    · rfl
  | cons c rest =>
    simp only [List.cons_append, parseFormat, List.append_eq]
    split
    · rfl
    · rw [findClose_append hx, Option.map_map, Option.map_map]
      rfl

theorem parseAfterFirst_append {x : Char} (hx : x ≠ '}') : ∀ s : Str,
    parseAfterFirst (s ++ [x])
      = (parseAfterFirst s).map (fun p => (p.1, p.2.1, p.2.2 ++ [x])) := by
  intro s
  induction s with
  | nil =>
    simp only [List.nil_append, parseAfterFirst]
    by_cases h1 : x = ':'
    · rw [if_pos h1]
      rfl
    · rw [if_neg h1, if_neg hx]
      by_cases h3 : x = '\n'
      · rw [if_pos h3]
        rfl
      · rw [if_neg h3]
        rfl
  | cons c rest ih =>
    simp only [List.cons_append, parseAfterFirst, List.append_eq]
    by_cases h1 : c = ':'
    · rw [if_pos h1, if_pos h1, parseFormat_append hx]
      cases hpf : parseFormat rest with
      | none =>
        simp only [hpf, Option.map_none']
        rw [ih, Option.map_map, Option.map_map]
        rfl
      | some p =>
        obtain ⟨fmt, rem⟩ := p
        simp only [hpf, Option.map_some']
    · rw [if_neg h1, if_neg h1]
      by_cases h2 : c = '}'
      · rw [if_pos h2, if_pos h2]
        rfl
      · rw [if_neg h2, if_neg h2]
        by_cases h3 : c = '\n'
        · rw [if_pos h3, if_pos h3]
          rfl
        · rw [if_neg h3, if_neg h3, ih, Option.map_map, Option.map_map]
          rfl

theorem parseToken_append {x : Char} (hx : x ≠ '}') (s : Str) :
    parseToken (s ++ [x]) = (parseToken s).map (fun p => (p.1, p.2.1, p.2.2 ++ [x])) := by
  cases s with
  | nil =>
    simp only [List.nil_append, parseToken]
    by_cases h3 : x = '\n'
    · rw [if_pos h3]
      rfl
    · rw [if_neg h3]
      rfl
  | cons c rest =>
    simp only [List.cons_append, parseToken, List.append_eq]
    by_cases h3 : c = '\n'
    · rw [if_pos h3, if_pos h3]
      rfl
    · rw [if_neg h3, if_neg h3, parseAfterFirst_append hx, Option.map_map, Option.map_map]
      rfl

theorem scanTemplate_append_safe {x : Char} (hx1 : x ≠ '$') (hx2 : x ≠ '{') (hx3 : x ≠ '}') :
    ∀ s : Str, scanTemplate (s ++ [x]) = scanTemplate s ++ [Piece.gap x] := by
  have main : ∀ (n : Nat) (s : Str), s.length ≤ n →
      scanTemplate (s ++ [x]) = scanTemplate s ++ [Piece.gap x] := by
    intro n
    induction n with
    | zero =>
      intro s hs
      have : s = [] := List.eq_nil_of_length_eq_zero (Nat.le_zero.mp hs)
      subst this
      rw [List.nil_append, scanTemplate_nil, List.nil_append,
        scanTemplate_gap (fun hand => hx1 hand.1), scanTemplate_nil]
    | succ n ih =>
      intro s hs
      cases s with
      | nil =>
        rw [List.nil_append, scanTemplate_nil, List.nil_append,
          scanTemplate_gap (fun hand => hx1 hand.1), scanTemplate_nil]
      | cons c rest =>
        by_cases hc : c = '$' ∧ rest.head? = some '{'
        · obtain ⟨rfl, hh⟩ := hc
          cases rest with
          | nil => exact absurd hh (by simp)
          | cons c2 rest2 =>
            have hc2 : c2 = '{' := by simpa using hh
            subst hc2
            cases hp : parseToken rest2 with
            | some p =>
              obtain ⟨nm, fm, rem⟩ := p
              have happ : parseToken (rest2 ++ [x]) = some (nm, fm, rem ++ [x]) := by
                rw [parseToken_append hx3, hp]
                rfl
              have hlen : rem.length ≤ n := by
                have := parseToken_len hp
                simp only [List.length_cons] at hs
                omega
              calc scanTemplate (('$' :: '{' :: rest2) ++ [x])
                  = scanTemplate ('$' :: '{' :: (rest2 ++ [x])) := by simp
                _ = Piece.token nm fm :: scanTemplate (rem ++ [x]) := scanTemplate_tok happ
                _ = Piece.token nm fm :: (scanTemplate rem ++ [Piece.gap x]) := by
                    rw [ih rem hlen]
                _ = (Piece.token nm fm :: scanTemplate rem) ++ [Piece.gap x] := rfl
                _ = scanTemplate ('$' :: '{' :: rest2) ++ [Piece.gap x] := by
                    rw [scanTemplate_tok hp]
            | none =>
              have happ : parseToken (rest2 ++ [x]) = none := by
                rw [parseToken_append hx3, hp]
                rfl
              have hlen : ('{' :: rest2).length ≤ n := by
                simp only [List.length_cons] at hs ⊢
                omega
              calc scanTemplate (('$' :: '{' :: rest2) ++ [x])
                  = scanTemplate ('$' :: '{' :: (rest2 ++ [x])) := by simp
                _ = Piece.gap '$' :: scanTemplate ('{' :: (rest2 ++ [x])) :=
                    scanTemplate_nomatch happ
                _ = Piece.gap '$' :: scanTemplate (('{' :: rest2) ++ [x]) := rfl
                _ = Piece.gap '$' :: (scanTemplate ('{' :: rest2) ++ [Piece.gap x]) := by
                    rw [ih ('{' :: rest2) hlen]
                _ = (Piece.gap '$' :: scanTemplate ('{' :: rest2)) ++ [Piece.gap x] := rfl
                _ = scanTemplate ('$' :: '{' :: rest2) ++ [Piece.gap x] := by
                    rw [scanTemplate_nomatch hp]
        · have hc' : ¬(c = '$' ∧ (rest ++ [x]).head? = some '{') := by
            rintro ⟨rfl, h2⟩
            apply hc
            refine ⟨rfl, ?_⟩
            cases rest with
            | nil =>
              simp only [List.nil_append, List.head?_cons, Option.some.injEq] at h2
              exact absurd h2 hx2
            | cons r rs => simpa using h2
          have hlen : rest.length ≤ n := by
            simp only [List.length_cons] at hs
            omega
          rw [List.cons_append, scanTemplate_gap hc', ih rest hlen, scanTemplate_gap hc]
          rfl
  intro s
  exact main s.length s (Nat.le_refl _)

theorem renderPieces_append (a b : List Piece) :
    renderPieces (a ++ b) = renderPieces a ++ renderPieces b := by
  simp [renderPieces]

theorem renderPieces_gaps : ∀ pre : Str, renderPieces (pre.map Piece.gap) = pre := by
  intro pre
  induction pre with
  | nil => rfl
  | cons c rest ih =>
    simp only [List.map_cons, renderPieces, List.flatten_cons] at ih ⊢
    rw [ih]
    rfl

theorem removeTokenFormatting_cons_slash (p : Str) :
    removeTokenFormatting ('/' :: p) = '/' :: removeTokenFormatting p := by
  rw [removeTokenFormatting, scanTemplate_gap (by simp), removeTokenFormatting]
  rfl

theorem removeTokenFormatting_append_slash (p : Str) :
    removeTokenFormatting (p ++ ['/']) = removeTokenFormatting p ++ ['/'] := by
  rw [removeTokenFormatting, scanTemplate_append_safe (by decide) (by decide) (by decide),
    renderPieces_append, removeTokenFormatting]
  rfl

theorem findSome?_append_gap (c : Char) : ∀ l : List Piece,
    (l ++ [Piece.gap c]).findSome? pieceUnknown = l.findSome? pieceUnknown := by
  intro l
  induction l with
  | nil => rfl
  | cons p ps ih =>
    rw [List.cons_append, List.findSome?_cons, List.findSome?_cons, ih]

theorem validateTokens_cons_slash (p : Str) :
    validateTokens ('/' :: p) = validateTokens p := by
  rw [validateTokens, scanTemplate_gap (by simp), List.findSome?_cons, validateTokens]
  rfl

theorem validateTokens_append_slash (p : Str) :
    validateTokens (p ++ ['/']) = validateTokens p := by
  rw [validateTokens, scanTemplate_append_safe (by decide) (by decide) (by decide),
    findSome?_append_gap, validateTokens]

theorem trimStartSlash_cons_slash (z : Str) : trimStartSlash ('/' :: z) = trimStartSlash z := rfl

theorem trimStartSlash_cons_ne {c : Char} (hc : c ≠ '/') (z : Str) :
    trimStartSlash (c :: z) = c :: z := by
  rw [trimStartSlash.eq_def]
  split
  · next heq => exact absurd (List.cons.injEq .. ▸ heq).1 hc
  · rfl

theorem trimStartSlash_nil_append {a : Str} (h : trimStartSlash a = []) (b : Str) :
    trimStartSlash (a ++ b) = trimStartSlash b := by
  induction a with
  | nil => rfl
  | cons c a' ih =>
    by_cases hc : c = '/'
    · subst hc
      rw [List.cons_append, trimStartSlash_cons_slash]
      exact ih (by rwa [trimStartSlash_cons_slash] at h)
    · rw [trimStartSlash_cons_ne hc] at h
      exact Option.noConfusion (congrArg List.head? h)

theorem trimStartSlash_cons_append {a t : Str} {c : Char} (h : trimStartSlash a = c :: t)
    (b : Str) : trimStartSlash (a ++ b) = c :: t ++ b := by
  induction a with
  | nil => exact Option.noConfusion (congrArg List.head? h)
  | cons d a' ih =>
    by_cases hd : d = '/'
    · subst hd
      rw [List.cons_append, trimStartSlash_cons_slash]
      exact ih (by rwa [trimStartSlash_cons_slash] at h)
    · rw [trimStartSlash_cons_ne hd] at h
      obtain ⟨rfl, rfl⟩ : d = c ∧ a' = t := ⟨(List.cons.injEq .. ▸ h).1, (List.cons.injEq .. ▸ h).2⟩
      rw [List.cons_append, trimStartSlash_cons_ne hd]

theorem trimEndSlash_append_slash (w : Str) : trimEndSlash (w ++ ['/']) = trimEndSlash w := by
  rw [trimEndSlash, trimEndSlash, List.reverse_append]
  rfl

theorem trim_both_append_slash (z : Str) :
    trimEndSlash (trimStartSlash (z ++ ['/'])) = trimEndSlash (trimStartSlash z) := by
  cases h : trimStartSlash z with
  | nil =>
    rw [trimStartSlash_nil_append h]
    rfl
  | cons c t =>
    rw [trimStartSlash_cons_append h, show c :: t ++ ['/'] = (c :: t) ++ ['/'] from rfl,
      trimEndSlash_append_slash]

theorem firstSegmentError_eq_find : ∀ parts : List Str,
    firstSegmentError parts
      = (((parts.map (fun seg => validateFilename seg true)).find?
          (fun e => !e.isEmpty)).getD []) := by
  intro parts
  induction parts with
  | nil => rfl
  | cons p ps ih =>
    rw [firstSegmentError]
    by_cases h : validateFilename p true = []
    · rw [if_pos h, ih, List.map_cons, List.find?_cons_of_neg]
      rw [h]
      decide
    · rw [if_neg h, List.map_cons, List.find?_cons_of_pos]
      · rfl
      · simp [List.isEmpty_iff, h]

theorem validatePath_none {p : Str} (hvt : validateTokens (removeTokenFormatting p) = none) :
    validatePath p
      = (if trimEndSlash (trimStartSlash (removeTokenFormatting p)) = [] then []
        else firstSegmentError (splitSlash (trimEndSlash (trimStartSlash
          (removeTokenFormatting p))))) := by
  rw [validatePath, hvt]

/-- Claim C8: `validatePath` is invariant under adding a leading or a
trailing separator (in particular `validatePath "/a/b/" =
validatePath "a/b"`); whenever the token check passes, a path that is
empty after trimming separators is valid, and otherwise the result is the
first non-empty `validateFilename` error (tokens allowed) over the
segments obtained by splitting on the separator. -/
theorem C8_validatePath_invariance (p : Str) :
    validatePath ('/' :: p) = validatePath p ∧
    validatePath (p ++ ['/']) = validatePath p ∧
    (validateTokens (removeTokenFormatting p) = none →
      (trimEndSlash (trimStartSlash (removeTokenFormatting p)) = [] → validatePath p = []) ∧
      (trimEndSlash (trimStartSlash (removeTokenFormatting p)) ≠ [] →
        validatePath p
          = (((splitSlash (trimEndSlash (trimStartSlash (removeTokenFormatting p)))).map
              (fun seg => validateFilename seg true)).find? (fun e => !e.isEmpty)).getD [])) := by
  refine ⟨?_, ?_, ?_⟩
  · rw [validatePath, validatePath, removeTokenFormatting_cons_slash,
      validateTokens_cons_slash, trimStartSlash_cons_slash]
  · rw [validatePath, validatePath, removeTokenFormatting_append_slash,
      validateTokens_append_slash, trim_both_append_slash]
  · intro hvt
    constructor
    · intro ht
      rw [validatePath_none hvt, if_pos ht]
    · intro ht
      rw [validatePath_none hvt, if_neg ht]
      exact firstSegmentError_eq_find _

/-- Witness for C8: the spec's instance `validatePath "/a/b/" =
validatePath "a/b"`, and the split/first-error characterization at the
same path. -/
theorem C8_validatePath_invariance_witness :
    validatePath "/a/b/".data = validatePath "a/b".data ∧
    validatePath "a/b".data
      = (((splitSlash "a/b".data).map (fun seg => validateFilename seg true)).find?
          (fun e => !e.isEmpty)).getD [] := by
  constructor
  · exact ((C8_validatePath_invariance "a/b/".data).1).trans
      ((C8_validatePath_invariance "a/b".data).2.1)
  · exact (((C8_validatePath_invariance "a/b".data).2.2 rfl).2 (by decide))

theorem findClose_wf : ∀ (a b : Str), (∀ c ∈ a, c ≠ '}' ∧ c ≠ '\n') →
    findClose (a ++ '}' :: b) = some (a, b) := by
  intro a
  induction a with
  | nil =>
    intro b _
    rw [List.nil_append]
    simp [findClose]
  | cons c a' ih =>
    intro b h
    have hc := h c (List.mem_cons_self c a')
    rw [List.cons_append]
    simp only [findClose]
    rw [if_neg hc.1, if_neg hc.2, ih b (fun x hx => h x (List.mem_cons_of_mem c hx))]
    rfl

theorem parseFormat_wf (fm b : Str) (hne : fm ≠ []) (hf : ∀ c ∈ fm, c ≠ '}' ∧ c ≠ '\n') :
    parseFormat (fm ++ '}' :: b) = some (fm, b) := by
  cases fm with
  | nil => exact absurd rfl hne
  | cons f0 f' =>
    have h0 := hf f0 (List.mem_cons_self f0 f')
    rw [List.cons_append]
    simp only [parseFormat]
    rw [if_neg h0.2, findClose_wf f' b (fun x hx => hf x (List.mem_cons_of_mem f0 hx))]
    rfl

theorem parseAfterFirst_close : ∀ (nm b : Str), (∀ c ∈ nm, c ≠ ':' ∧ c ≠ '}' ∧ c ≠ '\n') →
    parseAfterFirst (nm ++ '}' :: b) = some (nm, none, b) := by
  intro nm
  induction nm with
  | nil =>
    intro b _
    rw [List.nil_append]
    simp [parseAfterFirst]
  | cons c nm' ih =>
    intro b h
    have hc := h c (List.mem_cons_self c nm')
    rw [List.cons_append]
    simp only [parseAfterFirst]
    rw [if_neg hc.1, if_neg hc.2.1, if_neg hc.2.2,
      ih b (fun x hx => h x (List.mem_cons_of_mem c hx))]
    rfl

theorem parseAfterFirst_fmt : ∀ (nm fm b : Str),
    (∀ c ∈ nm, c ≠ ':' ∧ c ≠ '}' ∧ c ≠ '\n') → fm ≠ [] →
    (∀ c ∈ fm, c ≠ '}' ∧ c ≠ '\n') →
    parseAfterFirst (nm ++ ':' :: (fm ++ '}' :: b)) = some (nm, some fm, b) := by
  intro nm
  induction nm with
  | nil =>
    intro fm b _ hfe hf
    rw [List.nil_append]
    simp only [parseAfterFirst]
    rw [if_pos trivial, parseFormat_wf fm b hfe hf]
  | cons c nm' ih =>
    intro fm b h hfe hf
    have hc := h c (List.mem_cons_self c nm')
    rw [List.cons_append]
    simp only [parseAfterFirst]
    rw [if_neg hc.1, if_neg hc.2.1, if_neg hc.2.2,
      ih fm b (fun x hx => h x (List.mem_cons_of_mem c hx)) hfe hf]
    rfl

theorem parseToken_wf_plain (nm b : Str) (hne : nm ≠ [])
    (hn : ∀ c ∈ nm, c ≠ ':' ∧ c ≠ '}' ∧ c ≠ '\n') :
    parseToken (nm ++ '}' :: b) = some (nm, none, b) := by
  cases nm with
  | nil => exact absurd rfl hne
  | cons n0 nm' =>
    have h0 := hn n0 (List.mem_cons_self n0 nm')
    rw [List.cons_append]
    simp only [parseToken]
    rw [if_neg h0.2.2, parseAfterFirst_close nm' b (fun x hx => hn x (List.mem_cons_of_mem n0 hx))]
    rfl

theorem parseToken_wf_fmt (nm fm b : Str) (hne : nm ≠ [])
    (hn : ∀ c ∈ nm, c ≠ ':' ∧ c ≠ '}' ∧ c ≠ '\n') (hfe : fm ≠ [])
    (hf : ∀ c ∈ fm, c ≠ '}' ∧ c ≠ '\n') :
    parseToken (nm ++ ':' :: (fm ++ '}' :: b)) = some (nm, some fm, b) := by
  cases nm with
  | nil => exact absurd rfl hne
  | cons n0 nm' =>
    have h0 := hn n0 (List.mem_cons_self n0 nm')
    rw [List.cons_append]
    simp only [parseToken]
    rw [if_neg h0.2.2,
      parseAfterFirst_fmt nm' fm b (fun x hx => hn x (List.mem_cons_of_mem n0 hx)) hfe hf]
    rfl

theorem defaultTokenNames_lower :
    ∀ w ∈ defaultTokenNames, w ≠ [] ∧ ∀ c ∈ w, 'a' ≤ c ∧ c ≤ 'z' := by decide

theorem registered_name_safe {nm : Str} (h : isRegisteredToken nm = true) :
    nm ≠ [] ∧ ∀ c ∈ nm, c ≠ ':' ∧ c ≠ '}' ∧ c ≠ '\n' := by
  rw [isRegisteredToken, decide_eq_true_eq] at h
  have hprops := defaultTokenNames_lower (lowerStr nm) h
  constructor
  · intro hnil
    subst hnil
    exact hprops.1 rfl
  · intro c hc
    have hcl : Char.toLower c ∈ lowerStr nm := List.mem_map_of_mem Char.toLower hc
    have hbound := hprops.2 (Char.toLower c) hcl
    refine ⟨?_, ?_, ?_⟩ <;> rintro rfl <;> revert hbound <;> decide

theorem scanTemplate_gaps_before : ∀ (pre t : Str), (∀ c ∈ pre, c ≠ '$') →
    scanTemplate (pre ++ t) = pre.map Piece.gap ++ scanTemplate t := by
  intro pre
  induction pre with
  | nil => intro t _; rfl
  | cons c pre' ih =>
    intro t h
    rw [List.cons_append,
      scanTemplate_gap (fun hand => h c (List.mem_cons_self c pre') hand.1),
      ih t (fun x hx => h x (List.mem_cons_of_mem c hx)), List.map_cons, List.cons_append]

theorem validateFilename_true_congr {s1 s2 : Str}
    (h : removeTokenFormatting s1 = removeTokenFormatting s2) :
    validateFilename s1 true = validateFilename s2 true := by
  simp only [validateFilename, h]

theorem validatePath_congr {s1 s2 : Str}
    (h : removeTokenFormatting s1 = removeTokenFormatting s2) :
    validatePath s1 = validatePath s2 := by
  simp only [validatePath, h]

/-- Claim C10: both validators rewrite every matched `${name:format}`
occurrence to bare `${name}` before any other rule runs, so for a
registered token name, the characters inside the (matched) format — the
reserved characters and the path separator included — never influence the
result of `validateFilename` (tokens allowed) or `validatePath`: both
agree with the same input carrying the bare token instead.  The
hypotheses on the format (non-empty, no `}`, no newline) are exactly the
conditions under which `${name:format}` is one token match with that
format. -/
theorem C10_format_stripped_before_validation (pre nm fm post : Str)
    (hpre : ∀ c ∈ pre, c ≠ '$')
    (hreg : isRegisteredToken nm = true)
    (hfe : fm ≠ [])
    (hf : ∀ c ∈ fm, c ≠ '}' ∧ c ≠ '\n') :
    removeTokenFormatting (pre ++ '$' :: '{' :: (nm ++ ':' :: (fm ++ '}' :: post)))
      = pre ++ '$' :: '{' :: (nm ++ '}' :: removeTokenFormatting post) ∧
    validateFilename (pre ++ '$' :: '{' :: (nm ++ ':' :: (fm ++ '}' :: post))) true
      = validateFilename (pre ++ '$' :: '{' :: (nm ++ '}' :: post)) true ∧
    validatePath (pre ++ '$' :: '{' :: (nm ++ ':' :: (fm ++ '}' :: post)))
      = validatePath (pre ++ '$' :: '{' :: (nm ++ '}' :: post)) := by
  obtain ⟨hne, hn⟩ := registered_name_safe hreg
  have hscanL : scanTemplate (pre ++ '$' :: '{' :: (nm ++ ':' :: (fm ++ '}' :: post)))
      = pre.map Piece.gap ++ Piece.token nm (some fm) :: scanTemplate post := by
    rw [scanTemplate_gaps_before pre _ hpre,
      scanTemplate_tok (parseToken_wf_fmt nm fm post hne hn hfe hf)]
  have hscanR : scanTemplate (pre ++ '$' :: '{' :: (nm ++ '}' :: post))
      = pre.map Piece.gap ++ Piece.token nm none :: scanTemplate post := by
    rw [scanTemplate_gaps_before pre _ hpre,
      scanTemplate_tok (parseToken_wf_plain nm post hne hn)]
  have hnormL : removeTokenFormatting (pre ++ '$' :: '{' :: (nm ++ ':' :: (fm ++ '}' :: post)))
      = pre ++ '$' :: '{' :: (nm ++ '}' :: removeTokenFormatting post) := by
    rw [removeTokenFormatting, hscanL, renderPieces_append, renderPieces_gaps,
      show renderPieces (Piece.token nm (some fm) :: scanTemplate post)
        = ('$' :: '{' :: (nm ++ ['}'])) ++ renderPieces (scanTemplate post) from rfl]
    rw [removeTokenFormatting]
    simp
  have hnormR : removeTokenFormatting (pre ++ '$' :: '{' :: (nm ++ '}' :: post))
      = pre ++ '$' :: '{' :: (nm ++ '}' :: removeTokenFormatting post) := by
    rw [removeTokenFormatting, hscanR, renderPieces_append, renderPieces_gaps,
      show renderPieces (Piece.token nm none :: scanTemplate post)
        = ('$' :: '{' :: (nm ++ ['}'])) ++ renderPieces (scanTemplate post) from rfl]
    rw [removeTokenFormatting]
    simp
  exact ⟨hnormL, validateFilename_true_congr (hnormL.trans hnormR.symm),
    validatePath_congr (hnormL.trans hnormR.symm)⟩

/-- Witness for C10 at a concrete path: a `date` token whose format holds
every reserved character and the separator validates exactly like the
bare token. -/
theorem C10_format_stripped_before_validation_witness :
    validatePath ("a/".data ++ '$' :: '{' ::
        ("date".data ++ ':' :: ("Y/\\:*?\"<>|M".data ++ '}' :: "/b".data)))
      = validatePath ("a/".data ++ '$' :: '{' :: ("date".data ++ '}' :: "/b".data)) :=
  (C10_format_stripped_before_validation "a/".data "date".data "Y/\\:*?\"<>|M".data "/b".data
    (by decide) (by decide) (by decide) (by decide)).2.2

end AFL
